import Mathlib

/-!
Verification of `src/archiveS3.py` (TheSequencingCenter/archiveS3).

The script walks a local directory tree and uploads each regular file to an
S3 bucket, after listing buckets and selecting the snapshot subdirectory named
after yesterday's date.  We give a shallow embedding of the pure content of the
script: the `os.path` string functions it calls (faithful to CPython's
`posixpath`, and — where the behaviour of the key computation under a Windows
host matters — to `ntpath`), the directory walk (`os.walk`), the key
computations of `upload_file` / `upload_directory`, and the control flow of
`main`.  Effects (calls into the boto3 client, logged errors, the process exit
code) are modelled as explicit data returned by the embedded functions.

Conventions:
* `win : Bool` selects the host path convention: `false` = POSIX (separator
  `/`), `true` = Windows (separator `\`, with `/` accepted as an alternative
  separator).  The script itself runs on POSIX; all claims about the concrete
  behaviour instantiate `win := false`.
* `os.path.relpath` is embedded for absolute, already-normalised inputs
  (no `.` or `..` components), which is the domain on which the script uses it;
  on that domain CPython's `abspath`+split pipeline is exactly
  "split on separators, drop empty components".
-/

/-- Is `c` a path separator under host convention `win`?  POSIX: only `/`;
Windows: `\` and the alternative separator `/`. -/
def isSep (win : Bool) (c : Char) : Bool :=
  c = '/' || (win && c = '\\')

/-- The primary separator character of host convention `win`
(`os.sep`: `/` on POSIX, `\` on Windows). -/
def psep (win : Bool) : Char :=
  if win then '\\' else '/'

/-- Does the character list start with a separator? (`p.startswith(sep)` on the
underlying characters; `false` on the empty list, as in Python.) -/
def startsSep (win : Bool) : List Char → Bool
  | [] => false
  | c :: _ => isSep win c

/-- Does the character list end with a separator? -/
def endsSep (win : Bool) (l : List Char) : Bool :=
  startsSep win l.reverse

/-- `os.path.join(a, b)` on character lists.  POSIX (`posixpath.join`):
if `b` starts with `/` it replaces `a`; otherwise `b` is appended, inserting
`/` unless `a` is empty or already ends with `/`.  Windows (`ntpath.join`,
drive-less paths): if `b` starts with a separator it replaces `a`; otherwise
`b` is appended, inserting `\` unless `a` is empty or ends with a separator. -/
def joinL (win : Bool) (a b : List Char) : List Char :=
  if win then
    if startsSep true b then b
    else if a.isEmpty || endsSep true a then a ++ b
    else a ++ '\\' :: b
  else
    if startsSep false b then b
    else if a.isEmpty || endsSep false a then a ++ b
    else a ++ '/' :: b

/-- `os.path.basename(p)` on character lists: the suffix after the last
separator of the host convention. -/
def baseL (win : Bool) (l : List Char) : List Char :=
  (l.reverse.takeWhile (fun c => !isSep win c)).reverse

/-- `os.path.dirname(p)` on character lists: everything up to (and including)
the last separator; trailing separators are then stripped unless the result
consists of separators only. -/
def dirL (win : Bool) (l : List Char) : List Char :=
  let head := (l.reverse.dropWhile (fun c => !isSep win c)).reverse
  if head.all (fun c => isSep win c) then head
  else (head.reverse.dropWhile (fun c => isSep win c)).reverse

/-- Python `p.rstrip('/')` on character lists: drop trailing `'/'` characters
(only `'/'`, exactly as written in the source). -/
def rstripSlashL (l : List Char) : List Char :=
  (l.reverse.dropWhile (fun c => c = '/')).reverse

/-- Join a list of components with a single separator character between
consecutive components. -/
def intercSep (c : Char) : List (List Char) → List Char
  | [] => []
  | [x] => x
  | x :: xs => x ++ c :: intercSep c xs

/-- One `foldr` step of splitting a character list at separators:
the accumulator holds the token currently being built (read right-to-left)
and the completed tokens to the right. -/
def splitStep (win : Bool) (c : Char) (acc : List Char × List (List Char)) :
    List Char × List (List Char) :=
  if isSep win c then ([], if acc.1 = [] then acc.2 else acc.1 :: acc.2)
  else (c :: acc.1, acc.2)

/-- Split a character list at separators, as a `foldr`. -/
def splitAcc (win : Bool) (l : List Char) : List Char × List (List Char) :=
  l.foldr (splitStep win) ([], [])

/-- Close the split accumulator: emit the pending token if nonempty. -/
def flushAcc (p : List Char × List (List Char)) : List (List Char) :=
  if p.1 = [] then p.2 else p.1 :: p.2

/-- `[x for x in p.split(sep) if x]`: the nonempty components of a path.
This is the component view used by `os.path.relpath` (after `abspath`, which
on absolute dot-free input only collapses repeated separators). -/
def splitSeps (win : Bool) (l : List Char) : List (List Char) :=
  flushAcc (splitAcc win l)

/-- Length of the longest common prefix of two component lists (the loop in
`os.path.relpath` that counts the shared leading components). -/
def commonPrefixLen : List (List Char) → List (List Char) → Nat
  | a :: as, b :: bs => if a = b then commonPrefixLen as bs + 1 else 0
  | _, _ => 0

/-- `os.path.relpath(path, start)` on character lists, for absolute
dot-free arguments: split both into components, drop the common prefix, and
join `..` entries (one per remaining `start` component) with the remaining
`path` components; `.` if nothing remains. -/
def relpathL (win : Bool) (p s : List Char) : List Char :=
  let pl := splitSeps win p
  let sl := splitSeps win s
  let i := commonPrefixLen sl pl
  let rel := List.replicate (sl.length - i) ['.', '.'] ++ pl.drop i
  if rel = [] then ['.'] else intercSep (psep win) rel

/-- `str.replace("\\", "/")`: a character-wise replacement, since the pattern
is the single backslash character. -/
def replBackslash (l : List Char) : List Char :=
  l.map (fun c => if c = '\\' then '/' else c)

/- String-level wrappers, carrying the names of the `os.path` functions the
source calls. -/

/-- `os.path.join` on strings. -/
def osJoin (win : Bool) (a b : String) : String :=
  ⟨joinL win a.data b.data⟩

/-- `os.path.basename` on strings. -/
def basename (win : Bool) (s : String) : String :=
  ⟨baseL win s.data⟩

/-- `os.path.dirname` on strings. -/
def dirname (win : Bool) (s : String) : String :=
  ⟨dirL win s.data⟩

/-- `os.path.relpath` on strings (absolute dot-free domain). -/
def relpath (win : Bool) (p s : String) : String :=
  ⟨relpathL win p.data s.data⟩

/-- Python `s.rstrip('/')`. -/
def rstripSlash (s : String) : String :=
  ⟨rstripSlashL s.data⟩

/-- Python `s.replace("\\", "/")`. -/
def replaceBackslash (s : String) : String :=
  ⟨replBackslash s.data⟩

/-- Python `s.startswith(pre)`. -/
def pyStartswith (s pre : String) : Bool :=
  pre.data.isPrefixOf s.data

/-- An absolute normalised path, as a character list, built from its
components under host convention `win`: a leading separator followed by the
components joined by the separator. -/
def mkPathL (win : Bool) (M : List (List Char)) : List Char :=
  psep win :: intercSep (psep win) M

/-- An absolute normalised path built from its components under host
convention `win`. -/
def hostPath (win : Bool) (comps : List String) : String :=
  ⟨mkPathL win (comps.map String.data)⟩

/-- An absolute normalised POSIX path built from its components. -/
def absPath (comps : List String) : String :=
  hostPath false comps

/-- A directory entry name is well formed when it is nonempty, is not one of
the special entries `.` / `..`, and contains no separator character of either
convention. -/
def nameOk (s : String) : Bool :=
  s ≠ "" && s ≠ "." && s ≠ ".." &&
    s.data.all (fun c => c ≠ '/' && c ≠ '\\')

/-- A path component, as a character list, that is nonempty and free of
separator characters of either convention. -/
def goodName (n : List Char) : Prop :=
  n ≠ [] ∧ ∀ c ∈ n, c ≠ '/' ∧ c ≠ '\\'

/-- All components of a component list are well formed. -/
def goodComps (M : List (List Char)) : Prop :=
  ∀ n ∈ M, goodName n

mutual

/-- A filesystem tree: a regular file or a directory with an ordered list of
children (the order models `os.listdir` order). -/
inductive FSEntry where
  | file (name : String)
  | dir (name : String) (children : FSList)

/-- A list of sibling filesystem entries (a separate inductive so that
recursion over the tree stays structural). -/
inductive FSList where
  | nil
  | cons (e : FSEntry) (rest : FSList)

end

/-- Build sibling lists from ordinary list literals. -/
def fsList : List FSEntry → FSList
  | [] => FSList.nil
  | e :: es => FSList.cons e (fsList es)

/-- Names of the regular-file children, in listing order (the `files`
component of an `os.walk` triple). -/
def filesOf : FSList → List String
  | FSList.nil => []
  | FSList.cons (FSEntry.file n) rest => n :: filesOf rest
  | FSList.cons (FSEntry.dir _ _) rest => filesOf rest

/-- All entry names in the tree below a child list are well formed. -/
def entriesOk : FSList → Bool
  | FSList.nil => true
  | FSList.cons (FSEntry.file n) rest => nameOk n && entriesOk rest
  | FSList.cons (FSEntry.dir n cs) rest => nameOk n && entriesOk cs && entriesOk rest

/-- The recursive part of `os.walk` over the subdirectory children of the
directory at path `p`: for each subdirectory, its own `(root, files)` pair
followed by the pairs of its descendants, in listing order. -/
def walkSubdirs (win : Bool) (p : String) : FSList → List (String × List String)
  | FSList.nil => []
  | FSList.cons (FSEntry.file _) rest => walkSubdirs win p rest
  | FSList.cons (FSEntry.dir n cs) rest =>
      ((osJoin win p n, filesOf cs) :: walkSubdirs win (osJoin win p n) cs)
        ++ walkSubdirs win p rest

/-- `os.walk` from a directory with child list `cs` at path `p` (top-down):
the pair for `p` itself, then the pairs of all subdirectories. -/
def walkFrom (win : Bool) (p : String) (cs : FSList) : List (String × List String) :=
  (p, filesOf cs) :: walkSubdirs win p cs

/-- `os.walk(p)` where the filesystem object at `p` is `e`.  Walking a path
that is a regular file yields nothing. -/
def oswalk (win : Bool) (p : String) : FSEntry → List (String × List String)
  | FSEntry.file _ => []
  | FSEntry.dir _ cs => walkFrom win p cs

/-- The record of one attempted upload inside `upload_directory`: the local
path, the computed S3 key, and whether the `upload_file` call succeeded
(`except` caught a failure when `ok = false`). -/
structure UploadEvent where
  localPath : String
  key : String
  ok : Bool
  deriving DecidableEq, Repr

/-- `upload_directory(directory_path, bucket_name, s3_client)`
(src/archiveS3.py lines 56–75), with the filesystem object at
`directory_path` given by `entry` and the storage client modelled by
`put local bucket key`.  Returns the trace of attempted uploads, in walk
order; the Python function itself returns `None`, and a per-item failure is
caught and logged, never propagated. -/
def upload_directory (win : Bool) (directory_path bucket_name : String)
    (entry : FSEntry) (put : String → String → String → Bool) : List UploadEvent :=
  let base_dir := basename win (rstripSlash directory_path)
  (oswalk win directory_path entry).flatMap fun rf =>
    rf.2.map fun file =>
      let local_file_path := osJoin win rf.1 file
      let relative_path := relpath win local_file_path (dirname win directory_path)
      let s3_key := replaceBackslash (osJoin win base_dir relative_path)
      { localPath := local_file_path, key := s3_key,
        ok := put local_file_path bucket_name s3_key }

/-- The S3 keys of a trace, in order. -/
def keysOf (evs : List UploadEvent) : List String :=
  evs.map (fun e => e.key)

/-- The local paths of a trace, in order. -/
def localPathsOf (evs : List UploadEvent) : List String :=
  evs.map (fun e => e.localPath)

/-- The set of local file paths the walk of `upload_directory` visits
(independent of the storage client): every regular file of the tree, joined
below `directory_path`, in walk order. -/
def allLocalFiles (win : Bool) (directory_path : String) (entry : FSEntry) : List String :=
  (oswalk win directory_path entry).flatMap fun rf =>
    rf.2.map fun file => osJoin win rf.1 file

/-- The key computation of `upload_file(local_file_path, ...)`
(src/archiveS3.py lines 40–41): `s3_key = os.path.basename(local_file_path)`. -/
def upload_file_key (win : Bool) (local_file_path : String) : String :=
  basename win local_file_path

/-- Relative path (as a component list, filename last) of every regular file
of a child list, in `os.walk` order: first the files of the current
directory, then the files below each subdirectory in listing order. -/
def specFilesSub : FSList → List (List String)
  | FSList.nil => []
  | FSList.cons (FSEntry.file _) rest => specFilesSub rest
  | FSList.cons (FSEntry.dir n cs) rest =>
      (((filesOf cs).map (fun f => [f]) ++ specFilesSub cs).map
        (fun segs => n :: segs)) ++ specFilesSub rest

/-- Relative paths of all regular files below a child list, in walk order. -/
def specFilesFrom (cs : FSList) : List (List String) :=
  (filesOf cs).map (fun f => [f]) ++ specFilesSub cs

/-- A storage key written with `/` between the given components. -/
def keyString (segs : List String) : String :=
  ⟨intercSep '/' (segs.map String.data)⟩

/- ----------------------------------------------------------------- -/
/- The date computation and the `main` control flow.                 -/
/- ----------------------------------------------------------------- -/

/-- A calendar date as carried by a naive Python `datetime`. -/
structure PyDate where
  year : Nat
  month : Nat
  day : Nat
  deriving DecidableEq, Repr

/-- Gregorian leap year. -/
def isLeap (y : Nat) : Bool :=
  (y % 4 = 0 && y % 100 ≠ 0) || y % 400 = 0

/-- Days in a month of the Gregorian calendar. -/
def daysInMonth (y m : Nat) : Nat :=
  if m = 2 then (if isLeap y then 29 else 28)
  else if m = 4 || m = 6 || m = 9 || m = 11 then 30
  else 31

/-- The date part of `datetime.now() - timedelta(1)` when `now` has date `d`:
naive datetime arithmetic shifts the date to the previous calendar day. -/
def predDate (d : PyDate) : PyDate :=
  if d.day > 1 then ⟨d.year, d.month, d.day - 1⟩
  else if d.month > 1 then ⟨d.year, d.month - 1, daysInMonth d.year (d.month - 1)⟩
  else ⟨d.year - 1, 12, 31⟩

/-- Decimal digits, two places (`%m`, `%d`). -/
def pad2 (n : Nat) : String :=
  if n < 10 then "0" ++ toString n else toString n

/-- `date.strftime('%Y-%m-%d')` (src/archiveS3.py line 124). -/
def formatYMD (d : PyDate) : String :=
  toString d.year ++ "-" ++ pad2 d.month ++ "-" ++ pad2 d.day

/-- The snapshot-selection loop of `main` (src/archiveS3.py lines 130–133):
scan the `os.listdir` entries in order and return the first whose name starts
with yesterday's formatted date, if any. -/
def selectSnapshot (entries : List String) (now : PyDate) : Option String :=
  entries.find? (fun subdir => pyStartswith subdir (formatYMD (predDate now)))

/-- A call into the boto3 S3 client. -/
inductive StorageCall where
  | listBuckets
  | putObject (localPath bucket key : String)
  deriving DecidableEq, Repr

/-- The distinct error reports (`logger.error` sites) of the script. -/
inductive ErrKind where
  | configMissing
  | listBucketsFailed
  | uploadFileFailed (localPath key : String)
  | noSubdirFound (dateStr : String)
  deriving DecidableEq, Repr

/-- The observable outcome of a run of `main`: the process exit code, the
storage calls attempted (in order), and the errors reported. -/
structure RunOutcome where
  exitCode : Nat
  calls : List StorageCall
  errors : List ErrKind
  deriving DecidableEq, Repr

/-- The snapshot root hard-coded in `main` (src/archiveS3.py line 127). -/
def TIMESHIFT_DIR : String :=
  "/media/seqcenter/ebd27e92-e0fe-47d2-aa71-95c278cf17af/timeshift/snapshots-daily"

/-- The bucket hard-coded in `main` (src/archiveS3.py line 136). -/
def BUCKET_NAME : String :=
  "seqcenter-ubuntu-image-backup"

/-- Python truthiness of `os.getenv(...)`: `None` and the empty string are
falsy, every other string is truthy. -/
def truthy : Option String → Bool
  | none => false
  | some s => s ≠ ""

/-- `main()` (src/archiveS3.py lines 77–143) as a function of its inputs:
the three environment values, whether `list_buckets` succeeds, the
`os.listdir` entries of the snapshot root, the filesystem object found at a
path, the storage client's per-upload outcome, and the current date.
Transcribed control flow: a falsy credential or region aborts with exit 1
before any storage call; a `list_buckets` failure aborts with exit 1; then
the first snapshot entry starting with yesterday's date is uploaded via
`upload_directory` (whose per-item failures are only logged) and the process
finishes with exit 0, while no matching entry aborts with exit 1. -/
def mainRun (aws_access_key_id aws_secret_access_key region_name : Option String)
    (listBucketsOk : Bool) (snapshotEntries : List String)
    (fsAt : String → FSEntry) (put : String → String → String → Bool)
    (now : PyDate) : RunOutcome :=
  if !truthy aws_access_key_id || !truthy aws_secret_access_key || !truthy region_name then
    ⟨1, [], [ErrKind.configMissing]⟩
  else if !listBucketsOk then
    ⟨1, [StorageCall.listBuckets], [ErrKind.listBucketsFailed]⟩
  else
    match selectSnapshot snapshotEntries now with
    | some subdir =>
        let p := osJoin false TIMESHIFT_DIR subdir
        let evs := upload_directory false p BUCKET_NAME (fsAt p) put
        ⟨0,
         StorageCall.listBuckets ::
           evs.map (fun e => StorageCall.putObject e.localPath BUCKET_NAME e.key),
         evs.filterMap (fun e =>
           if e.ok then none else some (ErrKind.uploadFileFailed e.localPath e.key))⟩
    | none =>
        ⟨1, [StorageCall.listBuckets],
         [ErrKind.noSubdirFound (formatYMD (predDate now))]⟩

/- ----------------------------------------------------------------- -/
/- General helper lemmas.                                            -/
/- ----------------------------------------------------------------- -/

theorem takeWhile_append_of_all {p : Char → Bool} :
    ∀ {l r : List Char}, (∀ c ∈ l, p c = true) →
      (l ++ r).takeWhile p = l ++ r.takeWhile p := by
  intro l r h
  induction l with
  | nil => simp
  | cons a t ih =>
    have ha : p a = true := h a (List.mem_cons_self a t)
    simp [List.takeWhile, ha]
    exact ih fun c hc => h c (List.mem_cons_of_mem a hc)

theorem dropWhile_append_of_all {p : Char → Bool} :
    ∀ {l r : List Char}, (∀ c ∈ l, p c = true) →
      (l ++ r).dropWhile p = r.dropWhile p := by
  intro l r h
  induction l with
  | nil => simp
  | cons a t ih =>
    have ha : p a = true := h a (List.mem_cons_self a t)
    simp [List.dropWhile, ha]
    exact ih fun c hc => h c (List.mem_cons_of_mem a hc)

theorem length_filter_add_length_filter_neg {α : Type} (p : α → Bool) (l : List α) :
    (l.filter p).length + (l.filter (fun x => !p x)).length = l.length := by
  induction l with
  | nil => rfl
  | cons a t ih =>
    by_cases ha : p a = true <;> simp [List.filter, ha, Nat.add_assoc, Nat.add_comm,
      Nat.add_left_comm, ← ih]

theorem find_first_spec {α : Type} (p : α → Bool) (l : List α) :
    (l.find? p = none → ∀ x ∈ l, p x = false) ∧
    (∀ e, l.find? p = some e → p e = true ∧
      ∃ l₁ l₂, l = l₁ ++ e :: l₂ ∧ ∀ x ∈ l₁, p x = false) := by
  induction l with
  | nil => simp
  | cons a t ih =>
    by_cases hpa : p a = true
    · refine ⟨by simp [List.find?_cons_of_pos t hpa], ?_⟩
      intro e he
      rw [List.find?_cons_of_pos t hpa] at he
      cases he
      exact ⟨hpa, [], t, rfl, by simp⟩
    · have hpa' : p a = false := by simpa using hpa
      rw [List.find?_cons_of_neg t (by simp [hpa'])]
      refine ⟨?_, ?_⟩
      · intro hn x hx
        rcases List.mem_cons.mp hx with h | h
        · subst h; exact hpa'
        · exact ih.1 hn x h
      · intro e he
        obtain ⟨hpe, l₁, l₂, hsplit, hall⟩ := ih.2 e he
        refine ⟨hpe, a :: l₁, l₂, by simp [hsplit], ?_⟩
        intro x hx
        rcases List.mem_cons.mp hx with h | h
        · subst h; exact hpa'
        · exact hall x h

theorem nameOk_props {s : String} (h : nameOk s = true) :
    s.data ≠ [] ∧ ∀ c ∈ s.data, c ≠ '/' ∧ c ≠ '\\' := by
  simp only [nameOk, Bool.and_eq_true, decide_eq_true_eq, List.all_eq_true] at h
  refine ⟨?_, fun c hc => h.2 c hc⟩
  intro hd
  apply h.1.1.1
  cases s
  simp_all

theorem isSep_eq_false_of_nameOk {win : Bool} {s : String} (h : nameOk s = true) :
    ∀ c ∈ s.data, isSep win c = false := by
  intro c hc
  have h' := (nameOk_props h).2 c hc
  simp [isSep, h'.1, h'.2]

/-- `basename` of a `join` whose appended part contains no separator is that
part: the key fact behind the single-file key computation. -/
theorem baseL_joinL (win : Bool) (d n : List Char)
    (h : ∀ c ∈ n, isSep win c = false) :
    baseL win (joinL win d n) = n := by
  have hq : ∀ c ∈ n.reverse, (!isSep win c) = true := by
    intro c hc
    simp [h c (List.mem_reverse.mp hc)]
  have hstep : ∀ (pre : List Char), (pre = [] ∨ startsSep win pre.reverse = true) →
      baseL win (pre ++ n) = n := by
    intro pre hpre
    unfold baseL
    rw [List.reverse_append, takeWhile_append_of_all hq]
    rcases hpre with h1 | h1
    · subst h1
      simp
    · cases hrev : pre.reverse with
      | nil => simp [hrev]
      | cons c t =>
        rw [hrev] at h1
        simp only [startsSep] at h1
        simp [hrev, List.takeWhile, h1]
  have hsep : ∀ (pre : List Char) (c : Char), isSep win c = true →
      baseL win (pre ++ c :: n) = n := by
    intro pre c hc
    have heq : pre ++ c :: n = (pre ++ [c]) ++ n := by simp
    rw [heq]
    exact hstep (pre ++ [c]) (Or.inr (by simp [startsSep, hc]))
  have hsn : startsSep win n = false := by
    cases n with
    | nil => rfl
    | cons c t => simpa [startsSep] using h c (List.mem_cons_self c t)
  cases win with
  | false =>
    simp only [joinL, if_false, hsn, Bool.false_eq_true]
    cases hd : (d.isEmpty || endsSep false d) with
    | true =>
      simp only [if_true]
      rcases Bool.or_eq_true_iff.mp hd with h1 | h1
      · have : d = [] := by simpa [List.isEmpty_iff] using h1
        subst this
        exact hstep [] (Or.inl rfl)
      · exact hstep d (Or.inr (by simpa [endsSep] using h1))
    | false =>
      simp only [Bool.false_eq_true, if_false]
      exact hsep d '/' (by simp [isSep])
  | true =>
    simp only [joinL, if_true, hsn, Bool.false_eq_true, if_false]
    cases hd : (d.isEmpty || endsSep true d) with
    | true =>
      simp only [if_true]
      rcases Bool.or_eq_true_iff.mp hd with h1 | h1
      · have : d = [] := by simpa [List.isEmpty_iff] using h1
        subst this
        exact hstep [] (Or.inl rfl)
      · exact hstep d (Or.inr (by simpa [endsSep] using h1))
    | false =>
      simp only [Bool.false_eq_true, if_false]
      exact hsep d '\\' (by simp [isSep])

/- ----------------------------------------------------------------- -/
/- Scratch checks of the embedding on the spec's concrete scenarios. -/
/- ----------------------------------------------------------------- -/

example :
    keysOf (upload_directory false "/tmp/data/mydir" "archive-bucket"
      (FSEntry.dir "mydir" (fsList [FSEntry.file "a.txt",
        FSEntry.dir "sub" (fsList [FSEntry.file "b.txt"])]))
      (fun _ _ _ => true))
      = ["mydir/mydir/a.txt", "mydir/mydir/sub/b.txt"] := by decide

example : absPath ["tmp", "data", "mydir"] = "/tmp/data/mydir" := by decide

example : formatYMD (predDate ⟨2024, 7, 4⟩) = "2024-07-03" := by decide

example : upload_file_key false "/tmp/data/testfile" = "testfile" := by decide

/- ----------------------------------------------------------------- -/
/- Claim theorems.                                                   -/
/- ----------------------------------------------------------------- -/

/-- C8: if any of the three required configuration values (access key id,
secret key, region) is missing, the run fails immediately with exit code 1
reporting the configuration error, and no storage call (neither
`list_buckets` nor `put_object`) is ever attempted. -/
theorem missing_config_fatal_no_storage_call
    (a b c : Option String) (lOk : Bool) (entries : List String)
    (fsAt : String → FSEntry) (put : String → String → String → Bool) (now : PyDate)
    (h : a = none ∨ b = none ∨ c = none) :
    mainRun a b c lOk entries fsAt put now = ⟨1, [], [ErrKind.configMissing]⟩ ∧
      (mainRun a b c lOk entries fsAt put now).calls = [] := by
  have ht : (!truthy a || !truthy b || !truthy c) = true := by
    rcases h with h | h | h <;> subst h <;> simp [truthy]
  refine ⟨?_, ?_⟩ <;> simp [mainRun, ht]

/-- Witness for C8 at a concrete input: with the secret key absent, the run
reports the configuration error with exit code 1 and performs no storage
call. -/
theorem missing_config_fatal_no_storage_call_witness :
    mainRun (some "AKIA") none (some "us-east-1") true ["2024-07-03-snap"]
        (fun _ => FSEntry.dir "s" FSList.nil) (fun _ _ _ => true) ⟨2024, 7, 4⟩
      = ⟨1, [], [ErrKind.configMissing]⟩ ∧
    (mainRun (some "AKIA") none (some "us-east-1") true ["2024-07-03-snap"]
        (fun _ => FSEntry.dir "s" FSList.nil) (fun _ _ _ => true) ⟨2024, 7, 4⟩).calls = [] :=
  missing_config_fatal_no_storage_call _ _ _ _ _ _ _ _ (Or.inr (Or.inl rfl))

/-- C9: an empty string supplied for any of the three configuration values is
treated identically to an absent value, because the check tests Python
falsiness: the run is rejected with the same fatal configuration error before
any storage call, and the outcome coincides with the outcome for absent
values. -/
theorem empty_config_treated_as_missing
    (a b c : Option String) (lOk : Bool) (entries : List String)
    (fsAt : String → FSEntry) (put : String → String → String → Bool) (now : PyDate)
    (h : a = some "" ∨ b = some "" ∨ c = some "") :
    mainRun a b c lOk entries fsAt put now = ⟨1, [], [ErrKind.configMissing]⟩ ∧
    mainRun a b c lOk entries fsAt put now = mainRun none none none lOk entries fsAt put now := by
  have ht : (!truthy a || !truthy b || !truthy c) = true := by
    rcases h with h | h | h <;> subst h <;> simp [truthy]
  have h1 : mainRun a b c lOk entries fsAt put now = ⟨1, [], [ErrKind.configMissing]⟩ := by
    simp [mainRun, ht]
  have h2 : mainRun none none none lOk entries fsAt put now
      = ⟨1, [], [ErrKind.configMissing]⟩ := by
    simp [mainRun, truthy]
  exact ⟨h1, h1.trans h2.symm⟩

/-- Witness for C9 at a concrete input: an empty access key id is rejected
exactly like an absent one. -/
theorem empty_config_treated_as_missing_witness :
    mainRun (some "") (some "sk") (some "us-east-1") true ["2024-07-03-snap"]
        (fun _ => FSEntry.dir "s" FSList.nil) (fun _ _ _ => true) ⟨2024, 7, 4⟩
      = ⟨1, [], [ErrKind.configMissing]⟩ ∧
    mainRun (some "") (some "sk") (some "us-east-1") true ["2024-07-03-snap"]
        (fun _ => FSEntry.dir "s" FSList.nil) (fun _ _ _ => true) ⟨2024, 7, 4⟩
      = mainRun none none none true ["2024-07-03-snap"]
        (fun _ => FSEntry.dir "s" FSList.nil) (fun _ _ _ => true) ⟨2024, 7, 4⟩ :=
  empty_config_treated_as_missing _ _ _ _ _ _ _ _ (Or.inl rfl)

/-- C5: when no child of the snapshot root matches the target date prefix,
the run fails with exit code 1 reporting the not-found error for that date,
no upload is attempted afterwards (the only storage call is the bucket
listing), and the error is distinct from any upload-failure error. -/
theorem snapshot_not_found_fatal_distinct
    (a b c : Option String) (entries : List String)
    (fsAt : String → FSEntry) (put : String → String → String → Bool) (now : PyDate)
    (ha : truthy a = true) (hb : truthy b = true) (hc : truthy c = true)
    (hnone : selectSnapshot entries now = none) :
    mainRun a b c true entries fsAt put now
      = ⟨1, [StorageCall.listBuckets], [ErrKind.noSubdirFound (formatYMD (predDate now))]⟩ ∧
    (∀ l bu k, StorageCall.putObject l bu k ∉ (mainRun a b c true entries fsAt put now).calls) ∧
    (∀ l k, ErrKind.noSubdirFound (formatYMD (predDate now)) ≠ ErrKind.uploadFileFailed l k) := by
  refine ⟨?_, ?_, ?_⟩
  · simp [mainRun, ha, hb, hc, hnone]
  · intro l bu k
    simp [mainRun, ha, hb, hc, hnone]
  · intro l k
    simp

/-- Witness for C5 at a concrete input: target date 2024-07-10 with no
matching child. -/
theorem snapshot_not_found_fatal_distinct_witness :
    mainRun (some "ak") (some "sk") (some "r") true ["2024-07-03-foo", "2024-07-04-bar"]
        (fun _ => FSEntry.dir "s" FSList.nil) (fun _ _ _ => true) ⟨2024, 7, 11⟩
      = ⟨1, [StorageCall.listBuckets],
          [ErrKind.noSubdirFound (formatYMD (predDate ⟨2024, 7, 11⟩))]⟩ ∧
    (∀ l bu k, StorageCall.putObject l bu k ∉
      (mainRun (some "ak") (some "sk") (some "r") true ["2024-07-03-foo", "2024-07-04-bar"]
        (fun _ => FSEntry.dir "s" FSList.nil) (fun _ _ _ => true) ⟨2024, 7, 11⟩).calls) ∧
    (∀ l k, ErrKind.noSubdirFound (formatYMD (predDate ⟨2024, 7, 11⟩))
      ≠ ErrKind.uploadFileFailed l k) :=
  snapshot_not_found_fatal_distinct _ _ _ _ _ _ _ (by decide) (by decide) (by decide) (by decide)

/-- C10: snapshot selection does not filter by entry type; if the first child
whose name starts with the target date string is a regular file, it is passed
to `upload_directory`, whose walk of a non-directory yields no files, so the
run performs zero uploads (the only storage call is the bucket listing) and
still terminates successfully with exit code 0 and no errors. -/
theorem snapshot_file_selection_zero_uploads
    (a b c : Option String) (entries : List String)
    (fsAt : String → FSEntry) (put : String → String → String → Bool) (now : PyDate)
    (sub fname : String)
    (ha : truthy a = true) (hb : truthy b = true) (hc : truthy c = true)
    (hsel : selectSnapshot entries now = some sub)
    (hfile : fsAt (osJoin false TIMESHIFT_DIR sub) = FSEntry.file fname) :
    mainRun a b c true entries fsAt put now = ⟨0, [StorageCall.listBuckets], []⟩ := by
  simp [mainRun, ha, hb, hc, hsel, upload_directory, hfile, oswalk]

/-- Witness for C10 at a concrete input: the matching child
`2024-07-03-snap` is a regular file; the run uploads nothing and exits 0. -/
theorem snapshot_file_selection_zero_uploads_witness :
    mainRun (some "ak") (some "sk") (some "r") true ["2024-07-03-snap"]
        (fun _ => FSEntry.file "2024-07-03-snap") (fun _ _ _ => false) ⟨2024, 7, 4⟩
      = ⟨0, [StorageCall.listBuckets], []⟩ :=
  snapshot_file_selection_zero_uploads (some "ak") (some "sk") (some "r")
    ["2024-07-03-snap"] (fun _ => FSEntry.file "2024-07-03-snap") (fun _ _ _ => false)
    ⟨2024, 7, 4⟩ "2024-07-03-snap" "2024-07-03-snap"
    (by decide) (by decide) (by decide) (by decide) rfl

/-- C2, counterexample: the claim says the process exit code for
directory-batch mode is non-zero if any individual upload in the batch
failed.  At this concrete input every upload fails (the storage client
rejects all puts), an upload was attempted and recorded as failed, yet the
exit code is 0. -/
theorem batch_failure_exit_zero_cex :
    (mainRun (some "ak") (some "sk") (some "r") true ["2024-07-03-snap"]
        (fun _ => FSEntry.dir "2024-07-03-snap" (fsList [FSEntry.file "a.txt"]))
        (fun _ _ _ => false) ⟨2024, 7, 4⟩).exitCode = 0 ∧
    (mainRun (some "ak") (some "sk") (some "r") true ["2024-07-03-snap"]
        (fun _ => FSEntry.dir "2024-07-03-snap" (fsList [FSEntry.file "a.txt"]))
        (fun _ _ _ => false) ⟨2024, 7, 4⟩).errors ≠ [] := by
  constructor
  · rfl
  · decide

/-- C2 as amended: `upload_directory` returns no failure information to its
caller (in the source it returns `None`; here its whole observable content is
the upload trace), and the process exit code after a directory batch is 0
regardless of how many individual uploads failed — failures surface only as
logged errors. -/
theorem directory_batch_exit_zero_despite_failures
    (a b c : Option String) (entries : List String)
    (fsAt : String → FSEntry) (put : String → String → String → Bool) (now : PyDate)
    (sub : String)
    (ha : truthy a = true) (hb : truthy b = true) (hc : truthy c = true)
    (hsel : selectSnapshot entries now = some sub) :
    (mainRun a b c true entries fsAt put now).exitCode = 0 := by
  simp [mainRun, ha, hb, hc, hsel]

/-- Witness for the amended C2 at a concrete input where the single upload of
the batch fails: the exit code is still 0. -/
theorem directory_batch_exit_zero_despite_failures_witness :
    (mainRun (some "ak") (some "sk") (some "r") true ["2024-07-03-snap"]
        (fun _ => FSEntry.dir "2024-07-03-snap" (fsList [FSEntry.file "a.txt"]))
        (fun _ _ _ => false) ⟨2024, 7, 4⟩).exitCode = 0 :=
  directory_batch_exit_zero_despite_failures (some "ak") (some "sk") (some "r")
    ["2024-07-03-snap"]
    (fun _ => FSEntry.dir "2024-07-03-snap" (fsList [FSEntry.file "a.txt"]))
    (fun _ _ _ => false) ⟨2024, 7, 4⟩ "2024-07-03-snap"
    (by decide) (by decide) (by decide) (by decide)

/-- C4: the snapshot selector, with the default target date being the
calendar day immediately preceding `now` formatted as `YYYY-MM-DD`, scans
the immediate children of the root (the non-recursive `os.listdir` listing,
given here as `entries`) and returns the first child whose name starts with
that string: when it returns `none` no child matches, and when it returns
`some e` then `e` matches and every child listed before `e` does not. -/
theorem snapshot_selector_first_match (entries : List String) (now : PyDate) :
    (selectSnapshot entries now = none →
      ∀ x ∈ entries, pyStartswith x (formatYMD (predDate now)) = false) ∧
    (∀ e, selectSnapshot entries now = some e →
      pyStartswith e (formatYMD (predDate now)) = true ∧
      ∃ l₁ l₂, entries = l₁ ++ e :: l₂ ∧
        ∀ x ∈ l₁, pyStartswith x (formatYMD (predDate now)) = false) := by
  have h := find_first_spec (fun subdir => pyStartswith subdir (formatYMD (predDate now))) entries
  refine ⟨fun hn x hx => ?_, fun e he => h.2 e he⟩
  have := h.1 hn x hx
  simpa using this

/-- Witness for C4 at the spec's concrete scenario: with children
`2024-07-03-foo`, `2024-07-04-bar` and now = 2024-07-04 (so target date
2024-07-03), the selector returns `2024-07-03-foo`, which matches the prefix
and is preceded by no matching entry. -/
theorem snapshot_selector_first_match_witness :
    pyStartswith "2024-07-03-foo" (formatYMD (predDate ⟨2024, 7, 4⟩)) = true ∧
    ∃ l₁ l₂, ["2024-07-03-foo", "2024-07-04-bar"] = l₁ ++ "2024-07-03-foo" :: l₂ ∧
      ∀ x ∈ l₁, pyStartswith x (formatYMD (predDate ⟨2024, 7, 4⟩)) = false :=
  (snapshot_selector_first_match ["2024-07-03-foo", "2024-07-04-bar"] ⟨2024, 7, 4⟩).2
    "2024-07-03-foo" (by decide)

/-- C6: the single-file upload key is the file's base name only, independent
of the depth or identity of the containing directory: joining any directory
prefix onto a separator-free file name and taking the key recovers exactly
the name, so two different containing directories give the same key. -/
theorem single_file_key_is_basename_only (d₁ d₂ n : String) (hn : nameOk n = true) :
    upload_file_key false (osJoin false d₁ n) = n ∧
    upload_file_key false (osJoin false d₁ n) = upload_file_key false (osJoin false d₂ n) := by
  have hkey : ∀ d : String, upload_file_key false (osJoin false d n) = n := by
    intro d
    apply String.ext
    simpa [upload_file_key, basename, osJoin] using
      baseL_joinL false d.data n.data (isSep_eq_false_of_nameOk hn)
  exact ⟨hkey d₁, (hkey d₁).trans (hkey d₂).symm⟩

/-- Witness for C6 at concrete inputs of different depth. -/
theorem single_file_key_is_basename_only_witness :
    upload_file_key false (osJoin false "/tmp/data" "testfile") = "testfile" ∧
    upload_file_key false (osJoin false "/tmp/data" "testfile")
      = upload_file_key false (osJoin false "/a/much/deeper/nesting" "testfile") :=
  single_file_key_is_basename_only "/tmp/data" "/a/much/deeper/nesting" "testfile" (by decide)

/-- C3: during a directory batch, every file found by the walk is attempted
regardless of the storage client's failures (the trace's local paths are
exactly the walked files, which do not depend on `put`), each task's outcome
records precisely the result of its own `put` call (a failure is caught, not
propagated), and the successes and failures partition the batch: with
`N` the batch size and `k` the number of recorded failures, there are exactly
`N - k` recorded successes. -/
theorem directory_batch_attempts_all_and_counts
    (win : Bool) (dp bucket : String) (entry : FSEntry)
    (put : String → String → String → Bool) :
    localPathsOf (upload_directory win dp bucket entry put) = allLocalFiles win dp entry ∧
    (∀ e ∈ upload_directory win dp bucket entry put, e.ok = put e.localPath bucket e.key) ∧
    ((upload_directory win dp bucket entry put).filter (fun e => e.ok)).length +
      ((upload_directory win dp bucket entry put).filter (fun e => !e.ok)).length =
      (upload_directory win dp bucket entry put).length ∧
    ((upload_directory win dp bucket entry put).filter (fun e => e.ok)).length =
      (upload_directory win dp bucket entry put).length -
      ((upload_directory win dp bucket entry put).filter (fun e => !e.ok)).length := by
  refine ⟨?_, ?_, ?_, ?_⟩
  · simp only [localPathsOf, upload_directory, allLocalFiles, List.map_flatMap, List.map_map]
    rfl
  · intro e he
    simp only [upload_directory, List.mem_flatMap, List.mem_map] at he
    obtain ⟨rf, _, f, _, hef⟩ := he
    subst hef
    rfl
  · exact length_filter_add_length_filter_neg _ _
  · have h := length_filter_add_length_filter_neg (fun e : UploadEvent => e.ok)
      (upload_directory win dp bucket entry put)
    omega

/-- C1, counterexample: the claim's concrete scenario says uploading
directory `/tmp/data/mydir` containing `a.txt` and `sub/b.txt` yields keys
`mydir/a.txt` and `mydir/sub/b.txt`; the code instead prepends the base name
to a relative path that already contains it, yielding `mydir/mydir/a.txt`
and `mydir/mydir/sub/b.txt`. -/
theorem upload_directory_scenario_keys_cex :
    keysOf (upload_directory false "/tmp/data/mydir" "archive-bucket"
      (FSEntry.dir "mydir" (fsList [FSEntry.file "a.txt",
        FSEntry.dir "sub" (fsList [FSEntry.file "b.txt"])]))
      (fun _ _ _ => true))
      = ["mydir/mydir/a.txt", "mydir/mydir/sub/b.txt"] ∧
    keysOf (upload_directory false "/tmp/data/mydir" "archive-bucket"
      (FSEntry.dir "mydir" (fsList [FSEntry.file "a.txt",
        FSEntry.dir "sub" (fsList [FSEntry.file "b.txt"])]))
      (fun _ _ _ => true))
      ≠ ["mydir/a.txt", "mydir/sub/b.txt"] := by
  constructor
  · decide
  · decide

/- ----------------------------------------------------------------- -/
/- Lemmas about paths built from well-formed components.             -/
/- ----------------------------------------------------------------- -/

theorem goodName_of_nameOk {s : String} (h : nameOk s = true) : goodName s.data :=
  ⟨(nameOk_props h).1, (nameOk_props h).2⟩

theorem goodComps_of_all_nameOk {L : List String} (h : L.all nameOk = true) :
    goodComps (L.map String.data) := by
  intro n hn
  rcases List.mem_map.mp hn with ⟨s, hs, rfl⟩
  exact goodName_of_nameOk (List.all_eq_true.mp h s hs)

theorem isSep_eq_false_of_goodName {win : Bool} {n : List Char} (h : goodName n) :
    ∀ c ∈ n, isSep win c = false := by
  intro c hc
  have h' := h.2 c hc
  simp [isSep, h'.1, h'.2]

theorem isSep_psep (win : Bool) : isSep win (psep win) = true := by
  cases win <;> simp [isSep, psep]

theorem goodComps_append {M N : List (List Char)} (hM : goodComps M) (hN : goodComps N) :
    goodComps (M ++ N) := by
  intro n hn
  rcases List.mem_append.mp hn with h | h
  · exact hM n h
  · exact hN n h

theorem goodComps_of_append_left {M N : List (List Char)} (h : goodComps (M ++ N)) :
    goodComps M :=
  fun n hn => h n (List.mem_append.mpr (Or.inl hn))

theorem goodComps_of_append_right {M N : List (List Char)} (h : goodComps (M ++ N)) :
    goodComps N :=
  fun n hn => h n (List.mem_append.mpr (Or.inr hn))

theorem intercSep_cons (c : Char) (m : List Char) {N : List (List Char)} (h : N ≠ []) :
    intercSep c (m :: N) = m ++ c :: intercSep c N := by
  cases N with
  | nil => exact absurd rfl h
  | cons x xs => rfl

theorem intercSep_append (c : Char) {M N : List (List Char)} (hM : M ≠ []) (hN : N ≠ []) :
    intercSep c (M ++ N) = intercSep c M ++ c :: intercSep c N := by
  induction M with
  | nil => exact absurd rfl hM
  | cons m M' ih =>
    by_cases hM' : M' = []
    · subst hM'
      rw [List.singleton_append, intercSep_cons c m hN]
      rfl
    · have hMN : M' ++ N ≠ [] := by simp [hM']
      rw [List.cons_append, intercSep_cons c m hMN, ih hM', intercSep_cons c m hM']
      simp [List.append_assoc]

theorem splitAcc_nil (win : Bool) : splitAcc win [] = ([], []) := rfl

theorem splitAcc_cons (win : Bool) (c : Char) (t : List Char) :
    splitAcc win (c :: t) = splitStep win c (splitAcc win t) := rfl

theorem splitAcc_append_notsep (win : Bool) {m : List Char}
    (h : ∀ c ∈ m, isSep win c = false) (t : List Char) :
    splitAcc win (m ++ t) = (m ++ (splitAcc win t).1, (splitAcc win t).2) := by
  induction m with
  | nil => simp
  | cons a m' ih =>
    have ha : isSep win a = false := h a (List.mem_cons_self a m')
    have ih' := ih (fun c hc => h c (List.mem_cons_of_mem a hc))
    rw [List.cons_append, splitAcc_cons, ih']
    simp [splitStep, ha]

theorem splitAcc_sep_cons (win : Bool) {c : Char} (hc : isSep win c = true) (t : List Char) :
    splitAcc win (c :: t) = ([], flushAcc (splitAcc win t)) := by
  rw [splitAcc_cons]
  simp [splitStep, hc, flushAcc]

theorem splitSeps_intercSep (win : Bool) {M : List (List Char)} (h : goodComps M) :
    splitSeps win (intercSep (psep win) M) = M := by
  induction M with
  | nil => rfl
  | cons m M' ih =>
    have hm : goodName m := h m (List.mem_cons_self m M')
    have hnotsep : ∀ c ∈ m, isSep win c = false := isSep_eq_false_of_goodName hm
    by_cases hM' : M' = []
    · subst hM'
      have h1 : splitAcc win m = (m, []) := by
        have h2 := splitAcc_append_notsep win hnotsep []
        simpa [splitAcc_nil] using h2
      show splitSeps win (intercSep (psep win) [m]) = [m]
      have h2 : intercSep (psep win) [m] = m := rfl
      rw [h2]
      unfold splitSeps
      rw [h1]
      simp [flushAcc, hm.1]
    · have ih' := ih (fun n hn => h n (List.mem_cons_of_mem m hn))
      unfold splitSeps at ih' ⊢
      rw [intercSep_cons (psep win) m hM', splitAcc_append_notsep win hnotsep,
        splitAcc_sep_cons win (isSep_psep win)]
      simp only [flushAcc] at ih'
      simp [flushAcc, hm.1, ih']

theorem splitSeps_mkPathL (win : Bool) {M : List (List Char)} (h : goodComps M) :
    splitSeps win (mkPathL win M) = M := by
  have h2 := splitSeps_intercSep win h
  unfold splitSeps at h2 ⊢
  unfold mkPathL
  rw [splitAcc_sep_cons win (isSep_psep win)]
  simpa [flushAcc] using h2

theorem commonPrefixLen_self_append : ∀ (M R : List (List Char)),
    commonPrefixLen M (M ++ R) = M.length := by
  intro M R
  induction M with
  | nil => cases R <;> rfl
  | cons m M' ih => simp [commonPrefixLen, ih]

theorem exists_rev_intercSep (win : Bool) {M : List (List Char)}
    (h : goodComps M) (hM : M ≠ []) :
    ∃ c t, (intercSep (psep win) M).reverse = c :: t ∧ isSep win c = false := by
  induction M with
  | nil => exact absurd rfl hM
  | cons m M' ih =>
    have hm : goodName m := h m (List.mem_cons_self m M')
    obtain ⟨cm, tm, hmrev⟩ : ∃ c t, m.reverse = c :: t := by
      cases hrev : m.reverse with
      | nil => exact absurd (by simpa using congrArg List.reverse hrev) hm.1
      | cons c t => exact ⟨c, t, rfl⟩
    have hcm : isSep win cm = false := by
      have : cm ∈ m := List.mem_reverse.mp (by rw [hmrev]; exact List.mem_cons_self cm tm)
      exact isSep_eq_false_of_goodName hm cm this
    by_cases hM' : M' = []
    · subst hM'
      exact ⟨cm, tm, by simpa [intercSep] using hmrev, hcm⟩
    · obtain ⟨c, t, hrev, hc⟩ := ih (fun n hn => h n (List.mem_cons_of_mem m hn)) hM'
      refine ⟨c, t ++ psep win :: m.reverse, ?_, hc⟩
      rw [intercSep_cons (psep win) m hM']
      simp [List.reverse_append, hrev]

theorem rev_mkPathL_snoc (win : Bool) (M : List (List Char)) (b : List Char) :
    (mkPathL win (M ++ [b])).reverse
      = b.reverse ++ psep win ::
          (if M = [] then ([] : List Char) else (intercSep (psep win) M).reverse ++ [psep win]) := by
  by_cases hM : M = []
  · subst hM
    simp [mkPathL, intercSep]
  · rw [mkPathL, intercSep_append (psep win) hM (by simp)]
    simp [hM, intercSep, List.reverse_append]

theorem rstripSlashL_of_rev {l : List Char} {c : Char} {t : List Char}
    (hrev : l.reverse = c :: t) (hc : c ≠ '/') : rstripSlashL l = l := by
  unfold rstripSlashL
  rw [hrev]
  simp [List.dropWhile, hc, ← hrev]

theorem not_slash_of_not_isSep {win : Bool} {c : Char} (h : isSep win c = false) :
    c ≠ '/' := by
  intro hc
  subst hc
  simp [isSep] at h

theorem rstripSlashL_mkPathL (win : Bool) {M : List (List Char)}
    (h : goodComps M) (hM : M ≠ []) :
    rstripSlashL (mkPathL win M) = mkPathL win M := by
  obtain ⟨c, t, hrev, hc⟩ := exists_rev_intercSep win h hM
  have hrev2 : (mkPathL win M).reverse = c :: (t ++ [psep win]) := by
    simp [mkPathL, hrev]
  exact rstripSlashL_of_rev hrev2 (not_slash_of_not_isSep hc)

theorem baseL_mkPathL (win : Bool) (M : List (List Char)) {b : List Char}
    (hb : goodName b) : baseL win (mkPathL win (M ++ [b])) = b := by
  have hq : ∀ c ∈ b.reverse, (!isSep win c) = true := by
    intro c hc
    simp [isSep_eq_false_of_goodName hb c (List.mem_reverse.mp hc)]
  unfold baseL
  rw [rev_mkPathL_snoc win M b, takeWhile_append_of_all hq]
  simp [List.takeWhile, isSep_psep]

theorem dirL_mkPathL (win : Bool) {M : List (List Char)} {b : List Char}
    (hM : goodComps M) (hb : goodName b) :
    dirL win (mkPathL win (M ++ [b])) = mkPathL win M := by
  have hq : ∀ c ∈ b.reverse, (!isSep win c) = true := by
    intro c hc
    simp [isSep_eq_false_of_goodName hb c (List.mem_reverse.mp hc)]
  have hdrop : (mkPathL win (M ++ [b])).reverse.dropWhile (fun c => !isSep win c)
      = psep win :: (if M = [] then ([] : List Char)
          else (intercSep (psep win) M).reverse ++ [psep win]) := by
    rw [rev_mkPathL_snoc win M b, dropWhile_append_of_all hq,
      List.dropWhile_cons_of_neg (by simp [isSep_psep])]
  simp only [dirL]
  rw [hdrop]
  by_cases hMn : M = []
  · subst hMn
    simp [isSep_psep, mkPathL, intercSep]
  · simp only [hMn, if_false]
    obtain ⟨c, t, hrev, hc⟩ := exists_rev_intercSep win hM hMn
    have hhead : (psep win :: ((intercSep (psep win) M).reverse ++ [psep win])).reverse
        = psep win :: (intercSep (psep win) M ++ [psep win]) := by
      simp
    rw [hhead]
    have hcmem : c ∈ psep win :: (intercSep (psep win) M ++ [psep win]) := by
      have hmem : c ∈ intercSep (psep win) M :=
        List.mem_reverse.mp (by rw [hrev]; exact List.mem_cons_self c t)
      exact List.mem_cons_of_mem _ (List.mem_append_left _ hmem)
    have hall : (psep win :: (intercSep (psep win) M ++ [psep win])).all
        (fun c => isSep win c) = false :=
      List.all_eq_false.mpr ⟨c, hcmem, by simp [hc]⟩
    rw [if_neg (by simp [hall])]
    have hrev2 : (psep win :: (intercSep (psep win) M ++ [psep win])).reverse
        = psep win :: ((intercSep (psep win) M).reverse ++ [psep win]) := by
      simp
    rw [hrev2, List.dropWhile_cons_of_pos (by simp [isSep_psep]), hrev,
      List.cons_append, List.dropWhile_cons_of_neg (by simp [hc]),
      ← List.cons_append, ← hrev]
    simp [mkPathL]

theorem relpathL_mkPathL (win : Bool) {M R : List (List Char)}
    (hM : goodComps M) (hR : goodComps R) (hRne : R ≠ []) :
    relpathL win (mkPathL win (M ++ R)) (mkPathL win M) = intercSep (psep win) R := by
  unfold relpathL
  simp only [splitSeps_mkPathL win (goodComps_append hM hR), splitSeps_mkPathL win hM]
  rw [commonPrefixLen_self_append]
  simp [List.drop_left, hRne]

theorem endsSep_mkPathL (win : Bool) {M : List (List Char)}
    (h : goodComps M) (hM : M ≠ []) : endsSep win (mkPathL win M) = false := by
  obtain ⟨c, t, hrev, hc⟩ := exists_rev_intercSep win h hM
  have hrev2 : (mkPathL win M).reverse = c :: (t ++ [psep win]) := by
    simp [mkPathL, hrev]
  simp [endsSep, hrev2, startsSep, hc]

theorem startsSep_of_goodName {win : Bool} {n : List Char} (h : goodName n) :
    startsSep win n = false := by
  cases hn : n with
  | nil => rfl
  | cons c t =>
    have : isSep win c = false :=
      isSep_eq_false_of_goodName h c (by rw [hn]; exact List.mem_cons_self c t)
    simp [startsSep, this]

theorem startsSep_intercSep_good (win : Bool) {R : List (List Char)}
    (hR : goodComps R) (hRne : R ≠ []) :
    startsSep win (intercSep (psep win) R) = false := by
  cases R with
  | nil => exact absurd rfl hRne
  | cons r R' =>
    have hr : goodName r := hR r (List.mem_cons_self r R')
    by_cases hR' : R' = []
    · subst hR'
      exact startsSep_of_goodName hr
    · rw [intercSep_cons (psep win) r hR']
      cases hrn : r with
      | nil => exact absurd hrn hr.1
      | cons c t =>
        have : isSep win c = false :=
          isSep_eq_false_of_goodName hr c (by rw [hrn]; exact List.mem_cons_self c t)
        simp [startsSep, this]

theorem endsSep_of_goodName {win : Bool} {n : List Char} (h : goodName n) :
    endsSep win n = false := by
  unfold endsSep
  cases hn : n.reverse with
  | nil => rfl
  | cons c t =>
    have : isSep win c = false := by
      apply isSep_eq_false_of_goodName h
      exact List.mem_reverse.mp (by rw [hn]; exact List.mem_cons_self c t)
    simp [startsSep, this]

theorem joinL_mkPathL (win : Bool) {M : List (List Char)} {n : List Char}
    (hM : goodComps M) (hn : goodName n) :
    joinL win (mkPathL win M) n = mkPathL win (M ++ [n]) := by
  have hsn : startsSep win n = false := startsSep_of_goodName hn
  have hne : (mkPathL win M).isEmpty = false := by simp [mkPathL]
  by_cases hMn : M = []
  · subst hMn
    have hes : endsSep win (mkPathL win []) = true := by
      simp [endsSep, mkPathL, intercSep, startsSep, isSep_psep]
    cases win with
    | false =>
      simp only [joinL, hsn, Bool.false_eq_true, if_false, hne, hes, Bool.or_true, if_true]
      simp [mkPathL, intercSep]
    | true =>
      simp only [joinL, hsn, Bool.false_eq_true, if_false, hne, hes, Bool.or_true, if_true]
      simp [mkPathL, intercSep]
  · have hes : endsSep win (mkPathL win M) = false := endsSep_mkPathL win hM hMn
    have hcat : mkPathL win M ++ psep win :: n = mkPathL win (M ++ [n]) := by
      rw [mkPathL, mkPathL, intercSep_append (psep win) hMn (by simp)]
      simp [intercSep]
    cases win with
    | false =>
      simp only [joinL, hsn, Bool.false_eq_true, if_false, hne, hes, Bool.or_self]
      exact hcat
    | true =>
      simp only [joinL, hsn, Bool.false_eq_true, if_false, hne, hes, Bool.or_self]
      exact hcat

theorem joinL_name_intercSep (win : Bool) {b : List Char} {R : List (List Char)}
    (hb : goodName b) (hR : goodComps R) (hRne : R ≠ []) :
    joinL win b (intercSep (psep win) R) = intercSep (psep win) (b :: R) := by
  have hsrel : startsSep win (intercSep (psep win) R) = false :=
    startsSep_intercSep_good win hR hRne
  have hne : b.isEmpty = false := by
    cases hbn : b with
    | nil => exact absurd hbn hb.1
    | cons c t => rfl
  have hes : endsSep win b = false := endsSep_of_goodName hb
  have hcat : b ++ psep win :: intercSep (psep win) R = intercSep (psep win) (b :: R) :=
    (intercSep_cons (psep win) b hRne).symm
  cases win with
  | false =>
    simp only [joinL, hsrel, Bool.false_eq_true, if_false, hne, hes, Bool.or_self]
    exact hcat
  | true =>
    simp only [joinL, hsrel, Bool.false_eq_true, if_false, hne, hes, Bool.or_self]
    exact hcat

theorem replBackslash_eq_self {l : List Char} (h : ∀ c ∈ l, c ≠ '\\') :
    replBackslash l = l := by
  unfold replBackslash
  induction l with
  | nil => rfl
  | cons c t ih =>
    have hc : c ≠ '\\' := h c (List.mem_cons_self c t)
    simp only [List.map_cons, if_neg hc]
    rw [ih (fun x hx => h x (List.mem_cons_of_mem c hx))]

theorem replBackslash_psep (win : Bool) :
    (if psep win = '\\' then '/' else psep win) = '/' := by
  cases win <;> simp [psep]

theorem replBackslash_intercSep (win : Bool) {M : List (List Char)} (h : goodComps M) :
    replBackslash (intercSep (psep win) M) = intercSep '/' M := by
  induction M with
  | nil => rfl
  | cons m M' ih =>
    have hm : goodName m := h m (List.mem_cons_self m M')
    have hmr : replBackslash m = m :=
      replBackslash_eq_self (fun c hc => (hm.2 c hc).2)
    by_cases hM' : M' = []
    · subst hM'
      exact hmr
    · rw [intercSep_cons (psep win) m hM', intercSep_cons '/' m hM']
      unfold replBackslash at hmr ⊢
      rw [List.map_append, hmr, List.map_cons, replBackslash_psep win]
      have ih' := ih (fun n hn => h n (List.mem_cons_of_mem m hn))
      unfold replBackslash at ih'
      rw [ih']

theorem backslash_not_mem_replBackslash (l : List Char) : '\\' ∉ replBackslash l := by
  unfold replBackslash
  intro hmem
  rcases List.mem_map.mp hmem with ⟨c, _, hc⟩
  by_cases hb : c = '\\' <;> simp [hb] at hc

theorem data_osJoin (win : Bool) (a b : String) :
    (osJoin win a b).data = joinL win a.data b.data := rfl

theorem data_basename (win : Bool) (s : String) :
    (basename win s).data = baseL win s.data := rfl

theorem data_dirname (win : Bool) (s : String) :
    (dirname win s).data = dirL win s.data := rfl

theorem data_relpath (win : Bool) (p s : String) :
    (relpath win p s).data = relpathL win p.data s.data := rfl

theorem data_rstripSlash (s : String) :
    (rstripSlash s).data = rstripSlashL s.data := rfl

theorem data_replaceBackslash (s : String) :
    (replaceBackslash s).data = replBackslash s.data := rfl

theorem data_hostPath (win : Bool) (comps : List String) :
    (hostPath win comps).data = mkPathL win (comps.map String.data) := rfl

theorem data_keyString (segs : List String) :
    (keyString segs).data = intercSep '/' (segs.map String.data) := rfl

theorem osJoin_hostPath (win : Bool) {P : List String} {n : String}
    (hP : P.all nameOk = true) (hn : nameOk n = true) :
    osJoin win (hostPath win P) n = hostPath win (P ++ [n]) := by
  apply String.ext
  rw [data_osJoin, data_hostPath, data_hostPath, List.map_append]
  exact joinL_mkPathL win (goodComps_of_all_nameOk hP) (goodName_of_nameOk hn)

theorem all_nameOk_append {P Q : List String}
    (hP : P.all nameOk = true) (hQ : Q.all nameOk = true) :
    (P ++ Q).all nameOk = true := by
  rw [List.all_append, hP, hQ]
  rfl

theorem goodComps_cons {n : List Char} {M : List (List Char)}
    (hn : goodName n) (hM : goodComps M) : goodComps (n :: M) := by
  intro x hx
  rcases List.mem_cons.mp hx with h | h
  · subst h; exact hn
  · exact hM x h

theorem goodComps_singleton {n : List Char} (hn : goodName n) : goodComps [n] :=
  goodComps_cons hn (fun x hx => absurd hx (List.not_mem_nil x))

/-- The key computed by `upload_directory` for the file `f` reached through
the subdirectory chain `pre` below the source directory `hostPath (L ++ [b])`
is the `/`-joined components `b :: b :: pre ++ [f]`: the source directory's
base name appears twice, once from `base_dir` and once as the leading
component of the relative path. -/
theorem key_of_file_hostPath (win : Bool) {L : List String} {b : String}
    {pre : List String} {f : String}
    (hL : L.all nameOk = true) (hb : nameOk b = true)
    (hpre : pre.all nameOk = true) (hf : nameOk f = true) :
    replaceBackslash (osJoin win (basename win (rstripSlash (hostPath win (L ++ [b]))))
      (relpath win (osJoin win (hostPath win ((L ++ [b]) ++ pre)) f)
        (dirname win (hostPath win (L ++ [b])))))
    = keyString (b :: b :: (pre ++ [f])) := by
  have hLb : (L ++ [b]).all nameOk = true :=
    all_nameOk_append hL (by simp [hb])
  rw [osJoin_hostPath win (all_nameOk_append hLb hpre) hf]
  apply String.ext
  rw [data_replaceBackslash, data_osJoin, data_basename, data_rstripSlash,
    data_relpath, data_dirname, data_hostPath, data_hostPath, data_keyString]
  have hgL : goodComps (L.map String.data) :=
    goodComps_of_all_nameOk hL
  have hgb : goodName b.data := goodName_of_nameOk hb
  have hgpre : goodComps (pre.map String.data) :=
    goodComps_of_all_nameOk hpre
  have hgf : goodName f.data := goodName_of_nameOk hf
  have hmapLb : (L ++ [b]).map String.data = L.map String.data ++ [b.data] := by
    rw [List.map_append]; rfl
  have hgLb : goodComps (L.map String.data ++ [b.data]) :=
    goodComps_append hgL (goodComps_singleton hgb)
  rw [hmapLb, rstripSlashL_mkPathL win hgLb (by simp), baseL_mkPathL win _ hgb,
    dirL_mkPathL win hgL hgb]
  have hmapAll : (((L ++ [b]) ++ pre) ++ [f]).map String.data
      = L.map String.data ++ (b.data :: (pre.map String.data ++ [f.data])) := by
    simp [List.map_append]
  rw [hmapAll]
  have hgR : goodComps (b.data :: (pre.map String.data ++ [f.data])) :=
    goodComps_cons hgb (goodComps_append hgpre (goodComps_singleton hgf))
  rw [relpathL_mkPathL win hgL hgR (by simp)]
  rw [joinL_name_intercSep win hgb hgR (by simp)]
  have hfinal := replBackslash_intercSep win (goodComps_cons hgb hgR)
  rw [hfinal]
  simp

theorem filesOf_all_nameOk : ∀ (cs : FSList), entriesOk cs = true →
    (filesOf cs).all nameOk = true
  | FSList.nil, _ => rfl
  | FSList.cons (FSEntry.file n) rest, h => by
    simp only [entriesOk, Bool.and_eq_true] at h
    simp only [filesOf, List.all_cons, h.1, filesOf_all_nameOk rest h.2]
    rfl
  | FSList.cons (FSEntry.dir n cs) rest, h => by
    simp only [entriesOk, Bool.and_eq_true] at h
    simpa [filesOf] using filesOf_all_nameOk rest h.2

/-- Keys produced by the recursive part of the walk: every file reached
through subdirectory chain `pre ++ segs` below the source directory
`hostPath (L ++ [b])` gets the `/`-joined key `b :: b :: pre ++ segs`. -/
theorem walkSubdirs_keys (win : Bool) (L : List String) (b : String)
    (hL : L.all nameOk = true) (hb : nameOk b = true) :
    ∀ (cs : FSList) (pre : List String), entriesOk cs = true → pre.all nameOk = true →
    ((walkSubdirs win (hostPath win ((L ++ [b]) ++ pre)) cs).flatMap fun rf =>
        rf.2.map fun file =>
          replaceBackslash (osJoin win (basename win (rstripSlash (hostPath win (L ++ [b]))))
            (relpath win (osJoin win rf.1 file) (dirname win (hostPath win (L ++ [b]))))))
      = (specFilesSub cs).map (fun segs => keyString (b :: b :: (pre ++ segs)))
  | FSList.nil, pre, _, _ => by
    simp [walkSubdirs, specFilesSub]
  | FSList.cons (FSEntry.file n) rest, pre, hok, hpre => by
    simp only [entriesOk, Bool.and_eq_true] at hok
    simp only [walkSubdirs, specFilesSub]
    exact walkSubdirs_keys win L b hL hb rest pre hok.2 hpre
  | FSList.cons (FSEntry.dir n cs') rest, pre, hok, hpre => by
    simp only [entriesOk, Bool.and_eq_true] at hok
    have hLb : (L ++ [b]).all nameOk = true := all_nameOk_append hL (by simp [hb])
    have hpn : (pre ++ [n]).all nameOk = true :=
      all_nameOk_append hpre (by simp [hok.1.1])
    have hjoin : osJoin win (hostPath win ((L ++ [b]) ++ pre)) n
        = hostPath win ((L ++ [b]) ++ (pre ++ [n])) := by
      rw [osJoin_hostPath win (all_nameOk_append hLb hpre) hok.1.1, List.append_assoc]
    simp only [walkSubdirs, specFilesSub, List.flatMap_append, List.flatMap_cons]
    rw [hjoin]
    rw [walkSubdirs_keys win L b hL hb cs' (pre ++ [n]) hok.1.2 hpn]
    rw [walkSubdirs_keys win L b hL hb rest pre hok.2 hpre]
    have hfiles : (filesOf cs').map (fun file =>
        replaceBackslash (osJoin win (basename win (rstripSlash (hostPath win (L ++ [b]))))
          (relpath win (osJoin win (hostPath win ((L ++ [b]) ++ (pre ++ [n]))) file)
            (dirname win (hostPath win (L ++ [b]))))))
        = (filesOf cs').map (fun f => keyString (b :: b :: ((pre ++ [n]) ++ [f]))) := by
      apply List.map_congr_left
      intro f hfmem
      exact key_of_file_hostPath win hL hb hpn
        (List.all_eq_true.mp (filesOf_all_nameOk cs' hok.1.2) f hfmem)
    rw [hfiles]
    simp only [List.map_append, List.map_map]
    simp [Function.comp_def, List.append_assoc]

/-- Keys of a whole directory upload from an absolute normalised path with
well-formed component names: every regular file of the tree, in walk order,
gets the `/`-joined key `b :: b :: segs` where `b` is the source directory's
base name and `segs` the file's relative component chain. -/
theorem upload_directory_keys_hostPath (win : Bool) (L : List String)
    (b dn bucket : String) (cs : FSList) (put : String → String → String → Bool)
    (hL : L.all nameOk = true) (hb : nameOk b = true) (hcs : entriesOk cs = true) :
    keysOf (upload_directory win (hostPath win (L ++ [b])) bucket (FSEntry.dir dn cs) put)
      = (specFilesFrom cs).map (fun segs => keyString (b :: b :: segs)) := by
  have hmaster := walkSubdirs_keys win L b hL hb cs [] hcs rfl
  rw [List.append_nil] at hmaster
  have hkey : ∀ f ∈ filesOf cs,
      replaceBackslash (osJoin win (basename win (rstripSlash (hostPath win (L ++ [b]))))
        (relpath win (osJoin win (hostPath win (L ++ [b])) f)
          (dirname win (hostPath win (L ++ [b])))))
      = keyString (b :: b :: [f]) := by
    intro f hf
    have hnf : nameOk f = true := List.all_eq_true.mp (filesOf_all_nameOk cs hcs) f hf
    have h := @key_of_file_hostPath win L b [] f hL hb rfl hnf
    rw [List.append_nil] at h
    simpa using h
  simp only [keysOf, upload_directory, oswalk, walkFrom, List.map_flatMap,
    List.map_map, List.flatMap_cons, specFilesFrom, List.map_append]
  simp only [Function.comp_def]
  rw [hmaster]
  simp only [List.nil_append]
  congr 1
  exact List.map_congr_left hkey

/-- C1 as amended: for every directory tree rooted at an absolute normalised
path whose final component is `b`, the object key of every walked regular
file equals `baseName(T) + "/" + relativePath(f, parentOf(T))` joined with
`/`; since `relativePath(f, parentOf(T))` itself begins with `baseName(T)`,
every key is the `/`-joined `b :: b :: segs` with `segs` the file's relative
component chain inside `T` — the base name is doubled, so `/tmp/data/mydir`
yields `mydir/mydir/...` keys, not `mydir/...`. -/
theorem upload_directory_keys_base_doubled
    (L : List String) (b dn bucket : String) (cs : FSList)
    (put : String → String → String → Bool)
    (hL : L.all nameOk = true) (hb : nameOk b = true) (hcs : entriesOk cs = true) :
    keysOf (upload_directory false (absPath (L ++ [b])) bucket (FSEntry.dir dn cs) put)
      = (specFilesFrom cs).map (fun segs => keyString (b :: b :: segs)) :=
  upload_directory_keys_hostPath false L b dn bucket cs put hL hb hcs

/-- Witness for the amended C1 at the spec's concrete scenario directory
`/tmp/data/mydir` with files `a.txt` and `sub/b.txt`: the computed keys are
`mydir/mydir/a.txt` and `mydir/mydir/sub/b.txt`. -/
theorem upload_directory_keys_base_doubled_witness :
    keysOf (upload_directory false (absPath (["tmp", "data"] ++ ["mydir"])) "archive-bucket"
        (FSEntry.dir "mydir" (fsList [FSEntry.file "a.txt",
          FSEntry.dir "sub" (fsList [FSEntry.file "b.txt"])]))
        (fun _ _ _ => true))
      = (specFilesFrom (fsList [FSEntry.file "a.txt",
          FSEntry.dir "sub" (fsList [FSEntry.file "b.txt"])])).map
          (fun segs => keyString ("mydir" :: "mydir" :: segs)) ∧
    (specFilesFrom (fsList [FSEntry.file "a.txt",
        FSEntry.dir "sub" (fsList [FSEntry.file "b.txt"])])).map
        (fun segs => keyString ("mydir" :: "mydir" :: segs))
      = ["mydir/mydir/a.txt", "mydir/mydir/sub/b.txt"] :=
  ⟨upload_directory_keys_base_doubled ["tmp", "data"] "mydir" "mydir" "archive-bucket"
      (fsList [FSEntry.file "a.txt", FSEntry.dir "sub" (fsList [FSEntry.file "b.txt"])])
      (fun _ _ _ => true) (by decide) (by decide) (by decide),
   by decide⟩

/-- C7: every object key uses `/` as its path separator regardless of the
host path-separator convention of the input local paths: (1) no key produced
by the directory upload ever contains a backslash (the `replace` step maps
every backslash to `/`); (2) under both the POSIX and the Windows convention
the directory upload produces the same `/`-joined keys; (3) the single-file
key is the bare final component, containing no separator at all. -/
theorem object_keys_use_forward_slash
    (win : Bool) (L : List String) (b dn bucket : String) (cs : FSList)
    (put : String → String → String → Bool)
    (hL : L.all nameOk = true) (hb : nameOk b = true) (hcs : entriesOk cs = true) :
    (∀ (dp : String) (entry : FSEntry) (put2 : String → String → String → Bool)
      (e : UploadEvent), e ∈ upload_directory win dp bucket entry put2 →
        '\\' ∉ e.key.data) ∧
    keysOf (upload_directory win (hostPath win (L ++ [b])) bucket (FSEntry.dir dn cs) put)
      = (specFilesFrom cs).map (fun segs => keyString (b :: b :: segs)) ∧
    upload_file_key win (hostPath win (L ++ [b])) = b := by
  refine ⟨?_, upload_directory_keys_hostPath win L b dn bucket cs put hL hb hcs, ?_⟩
  · intro dp entry put2 e he
    simp only [upload_directory, List.mem_flatMap, List.mem_map] at he
    obtain ⟨rf, _, f, _, rfl⟩ := he
    exact backslash_not_mem_replBackslash _
  · apply String.ext
    have hmap : (L ++ [b]).map String.data = L.map String.data ++ [b.data] := by
      rw [List.map_append]
      rfl
    show baseL win (mkPathL win ((L ++ [b]).map String.data)) = b.data
    rw [hmap]
    exact baseL_mkPathL win _ (goodName_of_nameOk hb)

/-- Witness for C7 at a concrete input under the Windows convention: the
local tree lives at `\Users\snaps\mydir`, yet the produced key is `/`-joined
(`mydir/mydir/a.txt`), and the single-file key is the bare name. -/
theorem object_keys_use_forward_slash_witness :
    ((∀ (dp : String) (entry : FSEntry) (put2 : String → String → String → Bool)
      (e : UploadEvent), e ∈ upload_directory true dp "bucket" entry put2 →
        '\\' ∉ e.key.data) ∧
    keysOf (upload_directory true (hostPath true (["Users", "snaps"] ++ ["mydir"])) "bucket"
        (FSEntry.dir "mydir" (fsList [FSEntry.file "a.txt"])) (fun _ _ _ => true))
      = (specFilesFrom (fsList [FSEntry.file "a.txt"])).map
          (fun segs => keyString ("mydir" :: "mydir" :: segs)) ∧
    upload_file_key true (hostPath true (["Users", "snaps"] ++ ["mydir"])) = "mydir") ∧
    keysOf (upload_directory true (hostPath true (["Users", "snaps"] ++ ["mydir"])) "bucket"
        (FSEntry.dir "mydir" (fsList [FSEntry.file "a.txt"])) (fun _ _ _ => true))
      = ["mydir/mydir/a.txt"] :=
  ⟨object_keys_use_forward_slash true ["Users", "snaps"] "mydir" "mydir" "bucket"
      (fsList [FSEntry.file "a.txt"]) (fun _ _ _ => true)
      (by decide) (by decide) (by decide),
   by decide⟩
